import Mathlib

/-!
Verification of the bare-lsp core against its specification.

This development gives a shallow embedding, over `List Char` byte sequences,
of the three core components of the repository:

* `EditTextBuffer` (src/lsp-text-buffer.cc): line-based document store with
  incremental LSP edits;
* `JsonRpcDispatcher` (src/json-rpc-dispatcher.cc): JSON-RPC 2.0 message
  classification, reply formatting and error handling;
* `MessageStreamSplitter` (src/message-stream-splitter.cc): Content-Length
  framed message recovery from a chunked byte stream.

Bytes are modelled as `Char`, byte strings as `List Char` (all the relevant
data is ASCII; `std::string` is a plain byte container here).  Machine `int`
values that can be negative (`body_size`, `document_length_`) are modelled
as `Int`; container sizes and positions that the code only ever uses
non-negatively are `Nat`.  Fallible C++ paths (exceptions thrown by
handlers, `absl::Status` returns) are modelled with `Except`/`Option` and
explicit status values.
-/

namespace BareLsp

/-! ## EditTextBuffer (src/lsp-text-buffer.cc)

The document is `lines_ : vector<string>` where every line except possibly
the last ends in a newline character, plus the cached `document_length_`
and the `edit_count_` counters.  -/

structure Pos where
  line : Nat
  character : Nat
deriving Repr, DecidableEq

structure Range where
  s : Pos
  e : Pos
deriving Repr, DecidableEq

/-- `TextDocumentContentChangeEvent`: either a whole-document replacement
(`hasRange = false`, `range` ignored) or a ranged edit. -/
structure Change where
  hasRange : Bool
  range : Range
  text : List Char
deriving Repr, DecidableEq

structure Buffer where
  lines : List (List Char)
  documentLength : Int
  editCount : Int
deriving Repr, DecidableEq

/-- `absl::StrSplit(content, '\n')`: split on every newline, keeping empty
pieces; the empty input yields one empty piece. -/
def splitNL : List Char → List (List Char)
  | [] => [[]]
  | c :: t =>
    if c = '\n' then [] :: splitNL t
    else
      match splitNL t with
      | [] => [[c]]
      | h :: hs => (c :: h) :: hs

/-- `EditTextBuffer::GenerateLines`: split on newline, re-append a newline to
every piece, then fix up the file ending: drop the final (empty) piece when
the content ended in a newline, otherwise strip the re-appended newline from
the last piece. -/
def generateLines (content : List Char) : List (List Char) :=
  let result := (splitNL content).map (fun s => s ++ ['\n'])
  if content ≠ [] ∧ content.getLast? = some '\n' then
    result.dropLast
  else
    result.dropLast ++ [(result.getLastD []).dropLast]

/-- `EditTextBuffer::ReplaceDocument`: reset the cached length; for empty
content return early (leaving `lines_` untouched), otherwise regenerate the
line vector. -/
def replaceDocument (b : Buffer) (content : List Char) : Buffer :=
  let b := { b with documentLength := content.length }
  if content = [] then b else { b with lines := generateLines content }

/-- The `EditTextBuffer(absl::string_view initial_text)` constructor:
members start as `lines_ = {}`, `document_length_ = 0`, `edit_count_ = 0`,
then `ReplaceDocument(initial_text)` runs. -/
def newBuffer (initialText : List Char) : Buffer :=
  replaceDocument ⟨[], 0, 0⟩ initialText

/-- Effective end of a line for single-line edits:
`str->back() == '\n' ? str->length() - 1 : str->length()`. -/
def strEnd (str : List Char) : Nat :=
  if str.getLast? = some '\n' then str.length - 1 else str.length

/-- `EditTextBuffer::LineEdit` on line number `c.range.s.line`.  Fails (and
changes nothing) when the start column is beyond the effective line end or
when the clamped range is inverted; otherwise splices the replacement text
into the line and updates the cached length by the delta. -/
def lineEdit (b : Buffer) (c : Change) : Bool × Buffer :=
  let str := b.lines.getD c.range.s.line []
  let endChar := c.range.e.character
  if c.range.s.character > strEnd str then (false, b)
  else
    let endChar := min endChar (strEnd str)
    if endChar < c.range.s.character then (false, b)
    else
      let newStr := str.take c.range.s.character ++ c.text ++ str.drop endChar
      (true,
        { b with
          lines := b.lines.set c.range.s.line newStr
          documentLength := b.documentLength - str.length + newStr.length })

/-- `EditTextBuffer::MultiLineEdit`: keep the prefix of the first affected
line and the suffix of the last one, re-segment `before ++ text ++ behind`,
and splice the regenerated lines over lines `[s.line .. e.line]`.  The C++
`end_line.substr(c.range.end.character)` throws `std::out_of_range` when the
column exceeds the line length; the embedding totalises that case with
`List.drop` (theorems only ever use in-range edits). -/
def multiLineEdit (b : Buffer) (c : Change) : Bool × Buffer :=
  let startLine := b.lines.getD c.range.s.line []
  let before := startLine.take c.range.s.character
  let endLine := b.lines.getD c.range.e.line []
  let behind := endLine.drop c.range.e.character
  let newContent := before ++ c.text ++ behind
  let removed : Int :=
    ((b.lines.drop c.range.s.line).take (c.range.e.line + 1 - c.range.s.line)).foldl
      (fun sum line => sum + line.length) 0
  let regenerated := generateLines newContent
  (true,
    { b with
      lines := b.lines.take c.range.s.line ++ regenerated ++ b.lines.drop (c.range.e.line + 1)
      documentLength := b.documentLength - removed + newContent.length })

/-- The line vector after the `if (c.range.end.line >= lines_.size())`
append of one empty line in `ApplyChange`. -/
def linesAfterPush (b : Buffer) (c : Change) : List (List Char) :=
  if c.range.e.line ≥ b.lines.length then b.lines ++ [[]] else b.lines

/-- `EditTextBuffer::ApplyChange`: bump the edit counter first; then either a
whole-document replacement, a single-line edit (same line, no newline in the
replacement text), or a multi-line edit. -/
def applyChange (b : Buffer) (c : Change) : Bool × Buffer :=
  let b := { b with editCount := b.editCount + 1 }
  if ¬ c.hasRange then (true, replaceDocument b c.text)
  else
    let b := { b with lines := linesAfterPush b c }
    if c.range.s.line = c.range.e.line ∧ ¬ c.text.contains '\n' then
      lineEdit b c
    else
      multiLineEdit b c

/-- `EditTextBuffer::ApplyChanges`: apply a list of change events in order
(return values are dropped, as in the C++ range-for). -/
def applyChanges (b : Buffer) (cs : List Change) : Buffer :=
  cs.foldl (fun b c => (applyChange b c).2) b

/-- `EditTextBuffer::RequestContent` builds the flat concatenation of all
lines; the callback receives exactly this byte sequence. -/
def requestContent (b : Buffer) : List Char :=
  b.lines.flatten

/-! ### Line segmentation facts -/

theorem splitNL_ne_nil (l : List Char) : splitNL l ≠ [] := by
  cases l with
  | nil => simp [splitNL]
  | cons c t =>
    simp only [splitNL]
    split
    · simp
    · split <;> simp

theorem splitNL_cons_newline (t : List Char) : splitNL ('\n' :: t) = [] :: splitNL t := by
  simp [splitNL]

theorem splitNL_cons_other (c : Char) (t : List Char) (hc : c ≠ '\n')
    (p : List Char) (ps : List (List Char)) (hs : splitNL t = p :: ps) :
    splitNL (c :: t) = (c :: p) :: ps := by
  simp [splitNL, hc, hs]

/-- Splitting re-joined with a newline after every piece reproduces the
content plus one trailing newline. -/
theorem splitNL_flatten_map (l : List Char) :
    ((splitNL l).map (fun s => s ++ ['\n'])).flatten = l ++ ['\n'] := by
  induction l with
  | nil => simp [splitNL]
  | cons c t ih =>
    by_cases hc : c = '\n'
    · subst hc
      rw [splitNL_cons_newline]
      simpa using ih
    · cases hs : splitNL t with
      | nil => exact absurd hs (splitNL_ne_nil t)
      | cons p ps =>
        rw [splitNL_cons_other c t hc p ps hs]
        rw [hs] at ih
        simp only [List.map_cons, List.flatten_cons, List.cons_append] at ih ⊢
        exact congrArg (fun x => c :: x) ih

/-- A trailing newline contributes exactly one extra empty piece. -/
theorem splitNL_append_newline (l : List Char) :
    splitNL (l ++ ['\n']) = splitNL l ++ [[]] := by
  induction l with
  | nil => simp [splitNL]
  | cons c t ih =>
    rw [List.cons_append]
    by_cases hc : c = '\n'
    · subst hc
      rw [splitNL_cons_newline, splitNL_cons_newline, ih]
      simp
    · cases hs : splitNL t with
      | nil => exact absurd hs (splitNL_ne_nil t)
      | cons p ps =>
        have hs' : splitNL (t ++ ['\n']) = p :: (ps ++ [[]]) := by
          rw [ih, hs]; simp
        rw [splitNL_cons_other c _ hc _ _ hs', splitNL_cons_other c t hc p ps hs]
        simp

/-- Re-joining all but the last piece (with newlines) followed by the last
piece reproduces the content exactly. -/
theorem splitNL_flatten_dropLast (l : List Char) (qs : List (List Char)) (q : List Char)
    (h : splitNL l = qs ++ [q]) :
    (qs.map (fun s => s ++ ['\n'])).flatten ++ q = l := by
  induction l generalizing qs q with
  | nil =>
    simp only [splitNL] at h
    cases qs with
    | nil => simp at h; simp [h]
    | cons q0 qs' => simp at h
  | cons c t ih =>
    by_cases hc : c = '\n'
    · subst hc
      rw [splitNL_cons_newline] at h
      cases qs with
      | nil =>
        simp only [List.nil_append, List.cons.injEq] at h
        exact absurd h.2 (splitNL_ne_nil t)
      | cons q0 qs' =>
        simp only [List.cons_append, List.cons.injEq] at h
        obtain ⟨hq0, h2⟩ := h
        have := ih qs' q h2
        simp [← hq0, ← this]
    · cases hs : splitNL t with
      | nil => exact absurd hs (splitNL_ne_nil t)
      | cons p ps =>
        rw [splitNL_cons_other c t hc p ps hs] at h
        cases qs with
        | nil =>
          simp only [List.nil_append, List.cons.injEq] at h
          obtain ⟨hq, hps⟩ := h
          have := ih [] p (by rw [hs, hps]; simp)
          simp only [List.map_nil, List.flatten_nil, List.nil_append] at this ⊢
          rw [← hq, this]
        | cons q0 qs' =>
          simp only [List.cons_append, List.cons.injEq] at h
          obtain ⟨hq0, h2⟩ := h
          have := ih (p :: qs') q (by rw [hs, h2]; simp)
          rw [← hq0]
          simp only [List.map_cons, List.flatten_cons, List.cons_append] at this ⊢
          exact congrArg (fun x => c :: x) this

/-- Concatenating the generated lines reproduces the original content:
`GenerateLines` preserves the byte sequence. -/
theorem generateLines_flatten (content : List Char) :
    (generateLines content).flatten = content := by
  simp only [generateLines]
  by_cases h : content ≠ [] ∧ content.getLast? = some '\n'
  · rw [if_pos h]
    obtain ⟨hne, hlast⟩ := h
    have hsplit : content.dropLast ++ ['\n'] = content :=
      List.dropLast_append_getLast? '\n' hlast
    conv_lhs => rw [← hsplit]
    rw [splitNL_append_newline]
    simp only [List.map_append, List.map_cons, List.map_nil]
    rw [List.dropLast_concat]
    rw [splitNL_flatten_map]
    exact hsplit
  · rw [if_neg h]
    rcases List.eq_nil_or_concat (splitNL content) with hnil | ⟨qs, q, hqs⟩
    · exact absurd hnil (splitNL_ne_nil content)
    · rw [List.concat_eq_append] at hqs
      rw [hqs]
      simp only [List.map_append, List.map_cons, List.map_nil]
      rw [List.dropLast_concat]
      have hlastD : ((qs.map (fun s => s ++ ['\n'])) ++ [q ++ ['\n']]).getLastD [] = q ++ ['\n'] := by
        simp [List.getLastD_eq_getLast?, List.getLast?_concat]
      rw [hlastD, List.dropLast_concat]
      simp only [List.flatten_append, List.flatten_cons, List.flatten_nil, List.append_nil]
      exact splitNL_flatten_dropLast content qs q hqs

theorem flatten_linesAfterPush (b : Buffer) (c : Change) :
    (linesAfterPush b c).flatten = b.lines.flatten := by
  unfold linesAfterPush
  split
  · simp
  · rfl

theorem replaceDocument_editCount (b : Buffer) (t : List Char) :
    (replaceDocument b t).editCount = b.editCount := by
  simp only [replaceDocument]
  split <;> rfl

theorem lineEdit_editCount (b : Buffer) (c : Change) :
    (lineEdit b c).2.editCount = b.editCount := by
  simp only [lineEdit]
  split
  · rfl
  · split <;> rfl

theorem multiLineEdit_editCount (b : Buffer) (c : Change) :
    (multiLineEdit b c).2.editCount = b.editCount := by
  rfl

/-- Every `ApplyChange` call bumps the edit counter by exactly one,
whatever the outcome. -/
theorem applyChange_editCount (b : Buffer) (c : Change) :
    (applyChange b c).2.editCount = b.editCount + 1 := by
  simp only [applyChange]
  split
  · simp [replaceDocument_editCount]
  · split
    · rw [lineEdit_editCount]
    · rw [multiLineEdit_editCount]

theorem applyChanges_editCount (b : Buffer) (cs : List Change) :
    (applyChanges b cs).editCount = b.editCount + cs.length := by
  induction cs generalizing b with
  | nil => simp [applyChanges]
  | cons c cs ih =>
    have : applyChanges b (c :: cs) = applyChanges (applyChange b c).2 cs := rfl
    rw [this, ih, applyChange_editCount]
    simp only [List.length_cons]
    push_cast
    ring

/-- The line that a single-line edit operates on: entry `s.line` of the line
vector after `ApplyChange`'s append of an empty line. -/
def targetLine (b : Buffer) (c : Change) : List Char :=
  (linesAfterPush b c).getD c.range.s.line []

theorem lineEdit_fail_overlong (b : Buffer) (c : Change)
    (h : c.range.s.character > strEnd (b.lines.getD c.range.s.line [])) :
    lineEdit b c = (false, b) := by
  simp only [lineEdit]
  rw [if_pos h]

/-- C8.  Round-trip: constructing an `EditTextBuffer` from any initial text
and immediately reading its content through `RequestContent` yields exactly
that text — in particular texts with `\r\n` endings and texts with or
without a trailing newline, since every byte (including `\r`) is preserved
verbatim by segmentation. -/
theorem c8_constructor_roundTrip (t : List Char) :
    requestContent (newBuffer t) = t := by
  simp only [newBuffer, replaceDocument]
  split
  · rename_i h
    subst h
    rfl
  · simp [requestContent, generateLines_flatten]

/-- C9 counterexample.  The claim states that segmenting the empty string
yields the empty sequence of lines; `GenerateLines` actually returns the
one-element sequence containing the empty line (`StrSplit` produces a single
empty piece, the re-appended newline is stripped again). -/
theorem c9_counterexample_empty :
    generateLines [] = [[]] ∧ ([[]] : List (List Char)) ≠ [] := by
  constructor
  · rfl
  · simp

/-- C9 (amended).  Line segmentation splits on `\n`, re-appends `\n` to each
piece, drops the final element if the text ended in `\n` and otherwise
strips the trailing `\n` from the last element; `"a\nb"` gives
`["a\n","b"]` and `"a\nb\n"` gives `["a\n","b\n"]`.  The empty string gives
the one-element sequence `[""]`; an empty *document* nevertheless has no
lines, because `ReplaceDocument` returns early on empty content without
calling `GenerateLines`. -/
theorem c9_amended_segmentation :
    generateLines ("a\nb".toList) = [['a', '\n'], ['b']] ∧
    generateLines ("a\nb\n".toList) = [['a', '\n'], ['b', '\n']] ∧
    generateLines [] = [[]] ∧
    (newBuffer []).lines = [] := by
  refine ⟨rfl, rfl, rfl, rfl⟩

/-- C2 (code bug).  A whole-document replacement with empty text zeroes
`document_length_` but leaves the previous `lines_` in place
(`ReplaceDocument` returns before regenerating lines), so afterwards
`document_length()` is 0 while `RequestContent` still reconstructs the old
3-byte content — the claimed invariant fails. -/
theorem c2_empty_replace_breaks_length :
    (applyChange (newBuffer ("abc".toList)) ⟨false, ⟨⟨0, 0⟩, ⟨0, 0⟩⟩, []⟩).2.documentLength = 0 ∧
    requestContent (applyChange (newBuffer ("abc".toList)) ⟨false, ⟨⟨0, 0⟩, ⟨0, 0⟩⟩, []⟩).2
      = "abc".toList ∧
    ("abc".toList : List Char).length = 3 := by
  refine ⟨rfl, rfl, rfl⟩

/-- C7.  A single-line ranged edit whose start column exceeds the line's
effective length (length without a trailing `\n`) returns `false`, leaves
the document content and cached length unchanged, and still bumps the edit
counter; and after any sequence of `ApplyChange` calls the edit counter
equals the number of calls made.  (The bound and nonempty-line hypotheses
keep the run inside C++-defined behaviour: `lines_[start.line]` must exist
and `str->back()` needs a nonempty line.) -/
theorem c7_overlong_start_fails_but_counts (b : Buffer) (c : Change) (cs : List Change)
    (hr : c.hasRange = true)
    (hline : c.range.s.line = c.range.e.line)
    (htext : c.text.contains '\n' = false)
    (hbound : c.range.e.line ≤ b.lines.length)
    (hne : targetLine b c ≠ [])
    (hover : c.range.s.character > strEnd (targetLine b c)) :
    (applyChange b c).1 = false ∧
    requestContent (applyChange b c).2 = requestContent b ∧
    (applyChange b c).2.documentLength = b.documentLength ∧
    (applyChange b c).2.editCount = b.editCount + 1 ∧
    (applyChanges b cs).editCount = b.editCount + cs.length := by
  have happly : applyChange b c =
      (false, { b with lines := linesAfterPush b c, editCount := b.editCount + 1 }) := by
    simp only [applyChange]
    rw [if_neg (by simp [hr])]
    rw [if_pos ⟨hline, by simpa using htext⟩]
    exact lineEdit_fail_overlong _ c hover
  rw [happly]
  refine ⟨rfl, ?_, rfl, rfl, applyChanges_editCount b cs⟩
  simp only [requestContent]
  exact flatten_linesAfterPush b c

/-- C7 witness: buffer `"ab"` (one line, effective length 2), edit at
columns 5–5 of line 0, plus a two-edit sequence for the counter clause. -/
theorem c7_witness :
    (0 : Nat) = 0 ∧
    ((applyChange (newBuffer ("ab".toList)) ⟨true, ⟨⟨0, 5⟩, ⟨0, 5⟩⟩, ['x']⟩).1 = false ∧
     requestContent (applyChange (newBuffer ("ab".toList)) ⟨true, ⟨⟨0, 5⟩, ⟨0, 5⟩⟩, ['x']⟩).2
       = requestContent (newBuffer ("ab".toList)) ∧
     (applyChange (newBuffer ("ab".toList)) ⟨true, ⟨⟨0, 5⟩, ⟨0, 5⟩⟩, ['x']⟩).2.documentLength
       = (newBuffer ("ab".toList)).documentLength ∧
     (applyChange (newBuffer ("ab".toList)) ⟨true, ⟨⟨0, 5⟩, ⟨0, 5⟩⟩, ['x']⟩).2.editCount
       = (newBuffer ("ab".toList)).editCount + 1 ∧
     (applyChanges (newBuffer ("ab".toList))
        [⟨true, ⟨⟨0, 5⟩, ⟨0, 5⟩⟩, ['x']⟩, ⟨false, ⟨⟨0, 0⟩, ⟨0, 0⟩⟩, ['z']⟩]).editCount
       = (newBuffer ("ab".toList)).editCount + 2) := by
  refine ⟨rfl, ?_⟩
  exact c7_overlong_start_fails_but_counts (newBuffer ("ab".toList))
    ⟨true, ⟨⟨0, 5⟩, ⟨0, 5⟩⟩, ['x']⟩
    [⟨true, ⟨⟨0, 5⟩, ⟨0, 5⟩⟩, ['x']⟩, ⟨false, ⟨⟨0, 0⟩, ⟨0, 0⟩⟩, ['z']⟩]
    rfl rfl (by decide) (by decide) (by decide) (by decide)


/-! ## JsonRpcDispatcher (src/json-rpc-dispatcher.cc)

JSON values are modelled structurally (`nlohmann::json`); all strings are
`List Char` as elsewhere in this development.  Object members live in a
list sorted by key, mirroring the `std::map` nlohmann uses for objects;
`objSet` is `operator[]=` (ordered insert-or-assign).  Handlers are
arbitrary functions returning `Except (List Char) _`, the `error` case
standing for a thrown `std::exception` with its `what()` message.  The
dispatcher's observable effects are collected in `DispatchOut`: the replies
handed to the write function (`SendReply` serializes each one followed by a
newline; the claims are about reply count and content, so replies are kept
structured), the bumped statistics counter keys, and the
`exception_count_` increment. -/

inductive Json where
  | null : Json
  | bool (b : Bool) : Json
  | num (n : Int) : Json
  | str (s : List Char) : Json
  | arr (elements : List Json) : Json
  | obj (members : List (List Char × Json)) : Json

/-- Lexicographic byte-wise string comparison (`std::map`'s key order). -/
def strLtB : List Char → List Char → Bool
  | [], [] => false
  | [], _ :: _ => true
  | _ :: _, [] => false
  | x :: xs, y :: ys => if x < y then true else if y < x then false else strLtB xs ys

/-- Member lookup in an object's member list. -/
def jsonFind (members : List (List Char × Json)) (key : List Char) : Option Json :=
  match members with
  | [] => none
  | (k, v) :: rest => if k = key then some v else jsonFind rest key

/-- `request.find(key) != request.end()` (and the found value):
nlohmann's `find` yields `end()` on any non-object. -/
def Json.find : Json → List Char → Option Json
  | .obj members, key => jsonFind members key
  | _, _ => none

/-- Insert-or-assign into a key-sorted member list (`std::map::operator[]`). -/
def insertSorted (members : List (List Char × Json)) (key : List Char) (v : Json) :
    List (List Char × Json) :=
  match members with
  | [] => [(key, v)]
  | (k, w) :: rest =>
    if strLtB key k then (key, v) :: (k, w) :: rest
    else if key = k then (key, v) :: rest
    else (k, w) :: insertSorted rest key v

/-- `result[key] = v` on a JSON object (`operator[]` turns null into an
object first, as nlohmann does). -/
def objSet (j : Json) (key : List Char) (v : Json) : Json :=
  match j with
  | .obj members => .obj (insertSorted members key v)
  | _ => .obj [(key, v)]

/-- Wire error codes (`kParseError`, `kMethodNotFound`, `kInternalError`). -/
def kParseError : Int := -32700
def kMethodNotFound : Int := -32601
def kInternalError : Int := -32603

/-- `JsonRpcDispatcher::CreateError`: `{jsonrpc:"2.0"}` plus an `error`
object with the code (and the message unless it is empty); the request's
`id` is copied only when the request has one. -/
def createError (request : Json) (code : Int) (message : List Char) : Json :=
  let errObj := Json.obj [("code".toList, .num code)]
  let errObj := if message = [] then errObj else objSet errObj "message".toList (.str message)
  let result := objSet (Json.obj [("jsonrpc".toList, .str "2.0".toList)]) "error".toList errObj
  match request.find "id".toList with
  | some i => objSet result "id".toList i
  | none => result

/-- `JsonRpcDispatcher::MakeResponse`: `{jsonrpc:"2.0"}` with the request's
`id` copied and the handler's return value under `result`.  (Callers only
reach this with an `id` present; the `getD` default covers the C++ undefined
access on a missing key.) -/
def makeResponse (request : Json) (callResult : Json) : Json :=
  let result := Json.obj [("jsonrpc".toList, .str "2.0".toList)]
  let result := objSet result "id".toList ((request.find "id".toList).getD .null)
  objSet result "result".toList callResult

/-- `req["params"]` at the call sites that pass the params on to a handler
(absent params are passed as null). -/
def paramsOf (request : Json) : Json :=
  (request.find "params".toList).getD .null

/-- Handler registries: the two `unordered_map`s, modelled by their lookup
functions. -/
structure Dispatcher where
  reqHandlers : List Char → Option (Json → Except (List Char) Json)
  notifHandlers : List Char → Option (Json → Except (List Char) Unit)

/-- Observable effects of one `DispatchMessage` call: replies passed to the
write function in order, statistics counter keys bumped, and the
`exception_count_` increment. -/
structure DispatchOut where
  writes : List Json
  statKeys : List (List Char)
  exceptionDelta : Nat

/-- `JsonRpcDispatcher::CallNotification`: unknown method is reported as
unhandled with no reply; a throwing handler is swallowed, counted under
`method + " : " + what()` and with `exception_count_` bumped. -/
def callNotification (d : Dispatcher) (req : Json) (method : List Char) :
    Bool × DispatchOut :=
  match d.notifHandlers method with
  | none => (false, ⟨[], [], 0⟩)
  | some h =>
    match h (paramsOf req) with
    | .ok _ => (true, ⟨[], [], 0⟩)
    | .error e => (false, ⟨[], [method ++ " : ".toList ++ e], 1⟩)

/-- `JsonRpcDispatcher::CallRequestHandler`: unknown method replies
method-not-found; a normal return replies with `MakeResponse`; a throwing
handler is counted and replies with an internal error. -/
def callRequestHandler (d : Dispatcher) (req : Json) (method : List Char) :
    Bool × DispatchOut :=
  match d.reqHandlers method with
  | none =>
    (false,
      ⟨[createError req kMethodNotFound
          ("method '".toList ++ method ++ "' not found.".toList)], [], 0⟩)
  | some h =>
    match h (paramsOf req) with
    | .ok v => (true, ⟨[makeResponse req v], [], 0⟩)
    | .error e =>
      (false, ⟨[createError req kInternalError e], [method ++ " : ".toList ++ e], 1⟩)

/-- `JsonRpcDispatcher::DispatchMessage`.  The input is the outcome of
`nlohmann::json::parse` on the body (`Except.error` carries the parse
exception's `what()`; the `request` variable is still the default-constructed
null json in that case).  Returns `none` when the C++ would let an exception
escape `DispatchMessage` (a `method` member that is not a string). -/
def dispatchMessage (d : Dispatcher) (parsed : Except (List Char) Json) :
    Option DispatchOut :=
  match parsed with
  | .error e => some ⟨[createError .null kParseError e], [e], 1⟩
  | .ok request =>
    match request.find "method".toList with
    | none =>
      some ⟨[createError request kMethodNotFound "Method required in request".toList],
        ["Request without method".toList], 0⟩
    | some (.str method) =>
      let isNotification := (request.find "id".toList).isNone
      let handledOut :=
        if isNotification then callNotification d request method
        else callRequestHandler d request method
      some ⟨handledOut.2.writes,
        handledOut.2.statKeys ++
          [method ++ (if handledOut.1 then [] else " (unhandled)".toList) ++
            (if isNotification then "  ev".toList else " RPC".toList)],
        handledOut.2.exceptionDelta⟩
    | some _ => none

theorem jsonFind_insertSorted_self (members : List (List Char × Json)) (key : List Char)
    (v : Json) : jsonFind (insertSorted members key v) key = some v := by
  induction members with
  | nil => simp [insertSorted, jsonFind]
  | cons kw rest ih =>
    obtain ⟨k, w⟩ := kw
    by_cases h1 : strLtB key k
    · simp [insertSorted, h1, jsonFind]
    · by_cases h2 : key = k
      · subst h2
        simp [insertSorted, h1, jsonFind]
      · have hk : ¬ k = key := fun hk => h2 hk.symm
        simp [insertSorted, h1, h2, jsonFind, hk, ih]

theorem jsonFind_insertSorted_other (members : List (List Char × Json)) (key k' : List Char)
    (v : Json) (hkk : k' ≠ key) :
    jsonFind (insertSorted members key v) k' = jsonFind members k' := by
  have hkey : ¬ key = k' := fun h => hkk h.symm
  induction members with
  | nil =>
    simp only [insertSorted, jsonFind]
    rw [if_neg hkey]
  | cons kw rest ih =>
    obtain ⟨k, w⟩ := kw
    by_cases h1 : strLtB key k
    · simp only [insertSorted, if_pos h1, jsonFind]
      rw [if_neg hkey]
    · by_cases h2 : key = k
      · subst h2
        simp only [insertSorted, if_neg h1, if_pos rfl, jsonFind]
        rw [if_neg hkey, if_neg hkey]
      · simp only [insertSorted, if_neg h1, if_neg h2, jsonFind]
        by_cases h3 : k = k'
        · rw [if_pos h3, if_pos h3]
        · rw [if_neg h3, if_neg h3]
          exact ih

/-- `MakeResponse`, halfway unfolded: the member list after the two
`operator[]` assignments. -/
theorem makeResponse_members (req : Json) (v : Json) :
    makeResponse req v =
      .obj (insertSorted
        (insertSorted [("jsonrpc".toList, .str "2.0".toList)] "id".toList
          ((req.find "id".toList).getD .null))
        "result".toList v) := rfl

theorem makeResponse_find_result (req v : Json) :
    (makeResponse req v).find "result".toList = some v := by
  rw [makeResponse_members]
  exact jsonFind_insertSorted_self _ _ _

theorem makeResponse_find_id (req v : Json) :
    (makeResponse req v).find "id".toList = some ((req.find "id".toList).getD .null) := by
  rw [makeResponse_members]
  show jsonFind _ _ = _
  rw [jsonFind_insertSorted_other _ _ _ _ (by decide)]
  exact jsonFind_insertSorted_self _ _ _

theorem makeResponse_find_jsonrpc (req v : Json) :
    (makeResponse req v).find "jsonrpc".toList = some (.str "2.0".toList) := by
  rw [makeResponse_members]
  show jsonFind _ _ = _
  rw [jsonFind_insertSorted_other _ _ _ _ (by decide),
    jsonFind_insertSorted_other _ _ _ _ (by decide)]
  rfl

theorem makeResponse_find_error (req v : Json) :
    (makeResponse req v).find "error".toList = none := by
  rw [makeResponse_members]
  show jsonFind _ _ = _
  rw [jsonFind_insertSorted_other _ _ _ _ (by decide),
    jsonFind_insertSorted_other _ _ _ _ (by decide)]
  rfl

/-- `CreateError` on the null request (no `id` recoverable) with a nonempty
message, in closed form: members sorted as `error < jsonrpc`, the error
object as `code < message`, and no `id` member. -/
theorem createError_null_eq (code : Int) (e : List Char) (he : e ≠ []) :
    createError .null code e =
      .obj [("error".toList, .obj [("code".toList, .num code),
                                   ("message".toList, .str e)]),
            ("jsonrpc".toList, .str "2.0".toList)] := by
  simp only [createError]
  rw [if_neg he]
  rfl

/-- C3.  A message whose parsed object has a (string) `method` member and no
`id` member is a notification: `DispatchMessage` hands nothing to the write
function — neither when no notification handler is registered, nor when the
handler throws, nor on success — and a handler failure is only counted
(`exception_count_` bumped, `method + " : " + what()` key bumped). -/
theorem c3_notification_never_replies (d : Dispatcher) (members : List (List Char × Json))
    (method : List Char)
    (hm : jsonFind members "method".toList = some (.str method))
    (hid : jsonFind members "id".toList = none) :
    ∃ out, dispatchMessage d (.ok (.obj members)) = some out ∧
      out.writes = [] ∧
      (∀ h e, d.notifHandlers method = some h →
        h (paramsOf (.obj members)) = .error e →
        out.exceptionDelta = 1 ∧
        out.statKeys = [method ++ " : ".toList ++ e,
          method ++ " (unhandled)".toList ++ "  ev".toList]) := by
  cases hh : d.notifHandlers method with
  | none =>
    refine ⟨⟨[], [method ++ " (unhandled)".toList ++ "  ev".toList], 0⟩, ?_, rfl, ?_⟩
    · simp only [dispatchMessage, Json.find]
      rw [hm]
      dsimp only
      simp only [hid]
      simp [callNotification, hh]
    · intro h e hh2
      cases hh2
  | some h =>
    cases hres : h (paramsOf (.obj members)) with
    | ok u =>
      refine ⟨⟨[], [method ++ "  ev".toList], 0⟩, ?_, rfl, ?_⟩
      · simp only [dispatchMessage, Json.find]
        rw [hm]
        dsimp only
        simp only [hid]
        simp [callNotification, hh, hres]
      · intro h' e hh2 hres2
        simp only [Option.some.injEq] at hh2
        subst hh2
        rw [hres] at hres2
        cases hres2
    | error e =>
      refine ⟨⟨[], [method ++ " : ".toList ++ e,
          method ++ " (unhandled)".toList ++ "  ev".toList], 1⟩, ?_, rfl, ?_⟩
      · simp only [dispatchMessage, Json.find]
        rw [hm]
        dsimp only
        simp only [hid]
        simp [callNotification, hh, hres]
      · intro h' e' hh2 hres2
        simp only [Option.some.injEq] at hh2
        subst hh2
        rw [hres] at hres2
        simp only [Except.error.injEq] at hres2
        subst hres2
        exact ⟨rfl, rfl⟩

/-- C3 witness: an unregistered notification and a throwing notification
handler, both with no `id` member. -/
theorem c3_witness :
    (∃ out,
      dispatchMessage
        ⟨fun _ => none,
         fun s => if s = "note".toList then some (fun _ => .error "boom".toList) else none⟩
        (.ok (.obj [("method".toList, .str "note".toList)])) = some out ∧
      out.writes = [] ∧
      (∀ h e,
        (⟨fun _ => none,
          fun s => if s = "note".toList then some (fun _ => .error "boom".toList)
            else none⟩ : Dispatcher).notifHandlers "note".toList = some h →
        h (paramsOf (.obj [("method".toList, .str "note".toList)])) = .error e →
        out.exceptionDelta = 1 ∧
        out.statKeys = ["note".toList ++ " : ".toList ++ e,
          "note".toList ++ " (unhandled)".toList ++ "  ev".toList])) ∧
    (∃ out,
      dispatchMessage ⟨fun _ => none, fun _ => none⟩
        (.ok (.obj [("method".toList, .str "ghost".toList)])) = some out ∧
      out.writes = [] ∧
      (∀ h e,
        (⟨fun _ => none, fun _ => none⟩ : Dispatcher).notifHandlers "ghost".toList
            = some h →
        h (paramsOf (.obj [("method".toList, .str "ghost".toList)])) = .error e →
        out.exceptionDelta = 1 ∧
        out.statKeys = ["ghost".toList ++ " : ".toList ++ e,
          "ghost".toList ++ " (unhandled)".toList ++ "  ev".toList])) := by
  constructor
  · exact c3_notification_never_replies
      ⟨fun _ => none,
       fun s => if s = "note".toList then some (fun _ => .error "boom".toList) else none⟩
      [("method".toList, .str "note".toList)] "note".toList rfl rfl
  · exact c3_notification_never_replies
      ⟨fun _ => none, fun _ => none⟩
      [("method".toList, .str "ghost".toList)] "ghost".toList rfl rfl

/-- C4.  A message with an `id` member whose (string) `method` has a
registered request handler that returns normally produces exactly one
reply: the `MakeResponse` object, with `jsonrpc` `"2.0"`, the request's
`id` echoed verbatim (whatever JSON value it is, including null), the
handler's return value under `result`, and no `error` member. -/
theorem c4_request_success_single_reply (d : Dispatcher)
    (members : List (List Char × Json)) (method : List Char) (i : Json)
    (h : Json → Except (List Char) Json) (v : Json)
    (hm : jsonFind members "method".toList = some (.str method))
    (hid : jsonFind members "id".toList = some i)
    (hh : d.reqHandlers method = some h)
    (hv : h (paramsOf (.obj members)) = .ok v) :
    dispatchMessage d (.ok (.obj members)) =
      some ⟨[makeResponse (.obj members) v], [method ++ " RPC".toList], 0⟩ ∧
    (makeResponse (.obj members) v).find "jsonrpc".toList = some (.str "2.0".toList) ∧
    (makeResponse (.obj members) v).find "id".toList = some i ∧
    (makeResponse (.obj members) v).find "result".toList = some v ∧
    (makeResponse (.obj members) v).find "error".toList = none := by
  refine ⟨?_, makeResponse_find_jsonrpc _ _, ?_, makeResponse_find_result _ _,
    makeResponse_find_error _ _⟩
  · simp only [dispatchMessage, Json.find]
    rw [hm]
    dsimp only
    simp only [hid]
    simp [callRequestHandler, hh, hv]
  · rw [makeResponse_find_id]
    show some ((jsonFind members "id".toList).getD .null) = some i
    rw [hid]
    rfl

/-- C4 witness: the spec's `echo` round-trip, request id 7, handler
returning its params. -/
theorem c4_witness :
    dispatchMessage
      ⟨fun s => if s = "echo".toList then some (fun p => .ok p) else none,
       fun _ => none⟩
      (.ok (.obj [("id".toList, .num 7), ("method".toList, .str "echo".toList),
                  ("params".toList, .obj [("x".toList, .num 1)])])) =
      some ⟨[makeResponse
              (.obj [("id".toList, .num 7), ("method".toList, .str "echo".toList),
                     ("params".toList, .obj [("x".toList, .num 1)])])
              (.obj [("x".toList, .num 1)])],
            ["echo".toList ++ " RPC".toList], 0⟩ ∧
    (makeResponse
      (.obj [("id".toList, .num 7), ("method".toList, .str "echo".toList),
             ("params".toList, .obj [("x".toList, .num 1)])])
      (.obj [("x".toList, .num 1)])).find "jsonrpc".toList = some (.str "2.0".toList) ∧
    (makeResponse
      (.obj [("id".toList, .num 7), ("method".toList, .str "echo".toList),
             ("params".toList, .obj [("x".toList, .num 1)])])
      (.obj [("x".toList, .num 1)])).find "id".toList = some (.num 7) ∧
    (makeResponse
      (.obj [("id".toList, .num 7), ("method".toList, .str "echo".toList),
             ("params".toList, .obj [("x".toList, .num 1)])])
      (.obj [("x".toList, .num 1)])).find "result".toList = some (.obj [("x".toList, .num 1)]) ∧
    (makeResponse
      (.obj [("id".toList, .num 7), ("method".toList, .str "echo".toList),
             ("params".toList, .obj [("x".toList, .num 1)])])
      (.obj [("x".toList, .num 1)])).find "error".toList = none :=
  c4_request_success_single_reply
    ⟨fun s => if s = "echo".toList then some (fun p => .ok p) else none, fun _ => none⟩
    [("id".toList, .num 7), ("method".toList, .str "echo".toList),
     ("params".toList, .obj [("x".toList, .num 1)])]
    "echo".toList (.num 7) (fun p => .ok p) (.obj [("x".toList, .num 1)])
    rfl rfl rfl rfl

/-- C10.  When JSON parsing of the body fails, the single emitted reply is
built from the still-null `request` variable, so it never carries an `id`
member — whatever the malformed body contained — and consists of
`jsonrpc:"2.0"` plus an `error` object with code −32700 and the parser
exception's message (nlohmann `what()` strings are never empty). -/
theorem c10_parse_error_reply (d : Dispatcher) (e : List Char) (he : e ≠ []) :
    dispatchMessage d (.error e) =
      some ⟨[.obj [("error".toList, .obj [("code".toList, .num kParseError),
                                          ("message".toList, .str e)]),
               ("jsonrpc".toList, .str "2.0".toList)]], [e], 1⟩ ∧
    (createError .null kParseError e).find "id".toList = none := by
  constructor
  · simp only [dispatchMessage]
    rw [createError_null_eq _ _ he]
  · rw [createError_null_eq _ _ he]
    rfl

/-- C10 witness at a concrete nonempty parser message. -/
theorem c10_witness :
    dispatchMessage ⟨fun _ => none, fun _ => none⟩
      (.error "syntax error at line 1".toList) =
      some ⟨[.obj [("error".toList, .obj [("code".toList, .num kParseError),
                                          ("message".toList,
                                            .str "syntax error at line 1".toList)]),
               ("jsonrpc".toList, .str "2.0".toList)]],
            ["syntax error at line 1".toList], 1⟩ ∧
    (createError .null kParseError "syntax error at line 1".toList).find "id".toList = none :=
  c10_parse_error_reply ⟨fun _ => none, fun _ => none⟩ "syntax error at line 1".toList
    (by decide)

/-! ## MessageStreamSplitter (src/message-stream-splitter.cc)

The splitter state that matters across pulls is `pending_data_`, the bytes
retained from the previous round.  `ReadInput` concatenates pending bytes
with the newly read chunk (the C++ does this inside one fixed buffer with a
`memmove`; as long as leftover plus chunk fit into the buffer — the claims'
regime — the byte content is exactly the concatenation) and then
`ProcessContainedMessages` repeatedly splits complete frames off the front,
invoking the message processor with the `(header, body)` views. -/

def kEndHeaderMarker : List Char := "\r\n\r\n".toList

def kContentLengthHeader : List Char := "Content-Length: ".toList

/-- Does `pat` occur at the very start of `s`? -/
def startsWith (pat s : List Char) : Bool :=
  decide (s.take pat.length = pat)

/-- `absl::string_view::find`: index of the first occurrence of `pat`. -/
def findSubstr (pat : List Char) : List Char → Option Nat
  | [] => if pat = [] then some 0 else none
  | c :: t =>
    if startsWith pat (c :: t) then some 0
    else (findSubstr pat t).map (· + 1)

/-- `absl::ascii_isspace`. -/
def isAsciiSpace (c : Char) : Bool :=
  c = ' ' || c = '\t' || c = '\n' || c = '\x0b' || c = '\x0c' || c = '\r'

def digitsToNat (digits : List Char) : Nat :=
  digits.foldl (fun acc c => 10 * acc + (c.toNat - '0'.toNat)) 0

/-- `absl::SimpleAtoi<int>`: strip surrounding ASCII whitespace, allow one
sign, require the whole remainder to be base-10 digits, and fail on 32-bit
overflow. -/
def simpleAtoi (s : List Char) : Option Int :=
  let t := ((s.dropWhile isAsciiSpace).reverse.dropWhile isAsciiSpace).reverse
  match t with
  | [] => none
  | c :: rest =>
    let signed : Bool × List Char :=
      if c = '-' then (true, rest)
      else if c = '+' then (false, rest)
      else (false, c :: rest)
    if signed.2 = [] ∨ ¬ signed.2.all Char.isDigit then none
    else
      let n : Int := digitsToNat signed.2
      let v := if signed.1 then -n else n
      if v < -(2 ^ 31) ∨ v ≥ 2 ^ 31 then none else some v

/-- Outcome of `MessageStreamSplitter::ParseHeaderGetBodyOffset`:
`incomplete` is the C++ return value −1 (no `\r\n\r\n` yet), `invalid` the
return value −2 (no parseable `Content-Length:` in a complete header), and
`ok` carries the body offset plus the parsed body size. -/
inductive ParseResult where
  | incomplete : ParseResult
  | invalid : ParseResult
  | ok (bodyOffset : Nat) (bodySize : Int) : ParseResult
deriving DecidableEq, Repr

/-- `ParseHeaderGetBodyOffset`: find the first `\r\n\r\n`; search the bytes
before it for `Content-Length: `; `SimpleAtoi` everything between the end of
that key and the end of the header (so trailing header lines make the parse
fail); on success the body starts right after the marker. -/
def parseHeaderGetBodyOffset (data : List Char) : ParseResult :=
  match findSubstr kEndHeaderMarker data with
  | none => .incomplete
  | some endOfHeader =>
    let headerContent := data.take endOfHeader
    match findSubstr kContentLengthHeader headerContent with
    | none => .invalid
    | some foundCL =>
      let endKey := foundCL + kContentLengthHeader.length
      match simpleAtoi (headerContent.drop endKey) with
      | none => .invalid
      | some v => .ok (endOfHeader + kEndHeaderMarker.length) v

inductive ProcStatus where
  | ok : ProcStatus
  | invalidArgument : ProcStatus
deriving DecidableEq, Repr

/-- `MessageStreamSplitter::ProcessContainedMessages`: split complete frames
off the front of `data`, collecting the `(header, body)` pairs passed to the
message processor, and return the unconsumed remainder plus the status.
An unparseable complete header fails with invalid-argument; an incomplete
frame is retained for the next round.  (When the parsed body size is so
negative that no progress would be made the C++ loops forever on garbage
input; that unreachable-for-well-formed-frames case is cut off with an
`ok` stop.) -/
def processContainedMessages (data : List Char) :
    List (List Char × List Char) × List Char × ProcStatus :=
  if hd : data = [] then ([], [], .ok)
  else
    match parseHeaderGetBodyOffset data with
    | .invalid => ([], data, .invalidArgument)
    | .incomplete => ([], data, .ok)
    | .ok bodyOffset bodySize =>
      let messageSize : Int := bodyOffset + bodySize
      if messageSize > data.length then ([], data, .ok)
      else if hz : messageSize ≤ 0 then ([], data, .ok)
      else
        let header := data.take bodyOffset
        let body := (data.drop bodyOffset).take bodySize.toNat
        let res := processContainedMessages (data.drop messageSize.toNat)
        ((header, body) :: res.1, res.2)
termination_by data.length
decreasing_by
  simp only [List.length_drop]
  have hpos : 0 < data.length := List.length_pos.mpr hd
  omega

/-- What the read function produced for one `PullFrom`: a nonempty chunk of
bytes (the return value is the chunk length), a clean EOF (return 0), or an
error (negative return). -/
inductive ReadOutcome where
  | bytes (chunk : List Char) : ReadOutcome
  | eof : ReadOutcome
  | failure (errno : Int) : ReadOutcome

/-- The `absl::Status` codes the splitter can return. -/
inductive SplitStatus where
  | ok : SplitStatus
  | unavailable (value : Int) : SplitStatus
  | invalidArgument : SplitStatus
  | failedPrecondition : SplitStatus
  | dataLoss : SplitStatus
deriving DecidableEq, Repr

/-- `MessageStreamSplitter::ReadInput`: a read return value `<= 0` yields
`absl::UnavailableError("read() returned <n>")` carrying that value —
unconditionally, whatever is pending.  Otherwise pending and new bytes are
processed; on success the leftover becomes the new `pending_data_`, on a
processing error `pending_data_` is left as it was. -/
def readInput (pending : List Char) (r : ReadOutcome) :
    SplitStatus × List (List Char × List Char) × List Char :=
  match r with
  | .eof => (.unavailable 0, [], pending)
  | .failure e => (.unavailable e, [], pending)
  | .bytes chunk =>
    let res := processContainedMessages (pending ++ chunk)
    match res.2.2 with
    | .ok => (.ok, res.1, res.2.1)
    | .invalidArgument => (.invalidArgument, res.1, pending)

/-- `MessageStreamSplitter::PullFrom`: a missing message processor is a
failed-precondition error before any read happens. -/
def pullFrom (processorSet : Bool) (pending : List Char) (r : ReadOutcome) :
    SplitStatus × List (List Char × List Char) × List Char :=
  if processorSet then readInput pending r
  else (.failedPrecondition, [], pending)

/-- Repeated pulls, one nonempty chunk per read call: the concatenation of
all emitted `(header, body)` pairs in order, and the final pending bytes
(stopping, with `pending_data_` unchanged, if a pull fails). -/
def runChunks (pending : List Char) (chunks : List (List Char)) :
    List (List Char × List Char) × List Char :=
  match chunks with
  | [] => ([], pending)
  | c :: cs =>
    let res := processContainedMessages (pending ++ c)
    match res.2.2 with
    | .ok =>
      let rest := runChunks res.2.1 cs
      (res.1 ++ rest.1, rest.2)
    | .invalidArgument => (res.1, pending)

/-- The wire bytes of a frame. -/
def frameBytes (f : List Char × List Char) : List Char := f.1 ++ f.2

/-- The bytes of a whole frame sequence. -/
def concatFrames (fs : List (List Char × List Char)) : List Char :=
  (fs.map frameBytes).flatten

/-- A frame `(header, body)` the splitter accepts: the header is at least
the four marker bytes long, its first `\r\n\r\n` occurrence is exactly at
its end, and `SimpleAtoi` applied to everything between the first
`Content-Length: ` key and the end of the header yields exactly the body
length.  This is the code's acceptance condition, so it requires the
Content-Length line to be effectively the *last* header line: a frame whose
header merely contains a Content-Length line somewhere, with further header
lines after it, is rejected by the splitter (see the C1/C5
counterexamples). -/
def frameWFb (f : List Char × List Char) : Bool :=
  decide (4 ≤ f.1.length) &&
  decide (findSubstr kEndHeaderMarker f.1 = some (f.1.length - 4)) &&
  (match findSubstr kContentLengthHeader (f.1.take (f.1.length - 4)) with
   | none => false
   | some k =>
     decide (simpleAtoi ((f.1.take (f.1.length - 4)).drop (k + kContentLengthHeader.length))
       = some (f.2.length : Int)))

/-! ### Substring search facts -/

theorem take_append_left (a b : List Char) {n : Nat} (h : n ≤ a.length) :
    (a ++ b).take n = a.take n := by
  rw [List.take_append_eq_append_take, Nat.sub_eq_zero_of_le h, List.take_zero,
    List.append_nil]

theorem drop_append_left (a b : List Char) {n : Nat} (h : n ≤ a.length) :
    (a ++ b).drop n = a.drop n ++ b := by
  rw [List.drop_append_eq_append_drop, Nat.sub_eq_zero_of_le h, List.drop_zero]

theorem findSubstr_some_matches (pat s : List Char) (i : Nat)
    (h : findSubstr pat s = some i) : (s.drop i).take pat.length = pat := by
  induction s generalizing i with
  | nil =>
    simp only [findSubstr] at h
    split at h
    · rename_i hp
      cases h
      simp [hp]
    · cases h
  | cons c t ih =>
    simp only [findSubstr] at h
    split at h
    · rename_i hs
      cases h
      simpa [startsWith] using hs
    · cases hft : findSubstr pat t with
      | none => rw [hft] at h; cases h
      | some j =>
        rw [hft] at h
        simp only [Option.map_some'] at h
        cases h
        have := ih j hft
        simpa using this

theorem findSubstr_nil_pat (s : List Char) : findSubstr [] s = some 0 := by
  cases s <;> simp [findSubstr, startsWith]

theorem findSubstr_some_le (pat s : List Char) (i : Nat)
    (h : findSubstr pat s = some i) : i + pat.length ≤ s.length := by
  by_cases hp : pat = []
  · subst hp
    rw [findSubstr_nil_pat] at h
    cases h
    simp
  · have hple : 1 ≤ pat.length := by
      cases pat
      · simp at hp
      · simp
    have hm := findSubstr_some_matches pat s i h
    have h3 : min pat.length (s.drop i).length = pat.length := by
      rw [← List.length_take, hm]
    have h4 := Nat.min_le_right pat.length (s.drop i).length
    rw [h3] at h4
    have h5 : (s.drop i).length = s.length - i := by simp
    rw [h5] at h4
    omega

theorem findSubstr_some_first (pat s : List Char) (i : Nat)
    (h : findSubstr pat s = some i) :
    ∀ j, j < i → (s.drop j).take pat.length ≠ pat := by
  induction s generalizing i with
  | nil =>
    simp only [findSubstr] at h
    split at h
    · cases h
      intro j hj
      omega
    · cases h
  | cons c t ih =>
    simp only [findSubstr] at h
    split at h
    · cases h
      intro j hj
      omega
    · rename_i hs
      cases hft : findSubstr pat t with
      | none => rw [hft] at h; cases h
      | some j' =>
        rw [hft] at h
        simp only [Option.map_some'] at h
        cases h
        intro j hj
        cases j with
        | zero =>
          simpa [startsWith] using hs
        | succ j0 =>
          have := ih j' hft j0 (by omega)
          simpa using this

theorem findSubstr_none_no_match (pat s : List Char)
    (h : findSubstr pat s = none) :
    ∀ j, (s.drop j).take pat.length ≠ pat := by
  induction s with
  | nil =>
    simp only [findSubstr] at h
    split at h
    · cases h
    · rename_i hp
      intro j
      simpa using hp
  | cons c t ih =>
    simp only [findSubstr] at h
    split at h
    · cases h
    · rename_i hs
      have hft : findSubstr pat t = none := by
        cases hft : findSubstr pat t with
        | none => rfl
        | some j => rw [hft] at h; cases h
      intro j
      cases j with
      | zero => simpa [startsWith] using hs
      | succ j0 => simpa using ih hft j0

theorem findSubstr_eq_some_of (pat s : List Char) (i : Nat)
    (h2 : (s.drop i).take pat.length = pat)
    (h1 : ∀ j, j < i → (s.drop j).take pat.length ≠ pat) :
    findSubstr pat s = some i := by
  induction s generalizing i with
  | nil =>
    have hp : pat = [] := by simpa using h2.symm
    cases i with
    | zero => simp [findSubstr, hp]
    | succ i' =>
      exact absurd (by simp [hp]) (h1 0 (by omega))
  | cons c t ih =>
    cases i with
    | zero =>
      simp only [findSubstr]
      rw [if_pos]
      simp only [startsWith, decide_eq_true_eq]
      simpa using h2
    | succ i' =>
      have h0 : (c :: t).take pat.length ≠ pat := by
        simpa using h1 0 (by omega)
      simp only [findSubstr]
      rw [if_neg (by simpa [startsWith] using h0)]
      have hr := ih i' (by simpa using h2)
        (fun j hj => by simpa using h1 (j + 1) (by omega))
      rw [hr]
      rfl

theorem findSubstr_append (pat s u : List Char) (i : Nat)
    (h : findSubstr pat s = some i) : findSubstr pat (s ++ u) = some i := by
  have hle := findSubstr_some_le pat s i h
  apply findSubstr_eq_some_of
  · rw [drop_append_left s u (by omega), take_append_left _ u (by simp; omega)]
    exact findSubstr_some_matches pat s i h
  · intro j hj
    rw [drop_append_left s u (by omega), take_append_left _ u (by simp; omega)]
    exact findSubstr_some_first pat s i h j hj

theorem findSubstr_of_append_le (pat t u : List Char) (i : Nat)
    (h : findSubstr pat (t ++ u) = some i) (hle : i + pat.length ≤ t.length) :
    findSubstr pat t = some i := by
  apply findSubstr_eq_some_of
  · have hm := findSubstr_some_matches pat (t ++ u) i h
    rw [drop_append_left t u (by omega), take_append_left _ u (by simp; omega)] at hm
    exact hm
  · intro j hj
    have hfirst := findSubstr_some_first pat (t ++ u) i h j hj
    rw [drop_append_left t u (by omega), take_append_left _ u (by simp; omega)] at hfirst
    exact hfirst

theorem findSubstr_of_append_lt (pat t u : List Char) (i : Nat)
    (h : findSubstr pat (t ++ u) = some i) (hlt : t.length < i + pat.length) :
    findSubstr pat t = none := by
  cases hft : findSubstr pat t with
  | none => rfl
  | some j =>
    exfalso
    have hjle := findSubstr_some_le pat t j hft
    have hji : j < i := by omega
    have hm := findSubstr_some_matches pat t j hft
    have hlift : ((t ++ u).drop j).take pat.length = pat := by
      rw [drop_append_left t u (by omega), take_append_left _ u (by simp; omega)]
      exact hm
    exact findSubstr_some_first pat (t ++ u) i h j hji hlift

theorem frameWF_spec (h b : List Char) (hwf : frameWFb (h, b) = true) :
    4 ≤ h.length ∧
    findSubstr kEndHeaderMarker h = some (h.length - 4) ∧
    ∃ k, findSubstr kContentLengthHeader (h.take (h.length - 4)) = some k ∧
      simpleAtoi ((h.take (h.length - 4)).drop (k + kContentLengthHeader.length))
        = some (b.length : Int) := by
  unfold frameWFb at hwf
  dsimp only at hwf
  cases hcl : findSubstr kContentLengthHeader (h.take (h.length - 4)) with
  | none =>
    rw [hcl] at hwf
    simp at hwf
  | some k =>
    rw [hcl] at hwf
    simp only [Bool.and_eq_true, decide_eq_true_eq] at hwf
    exact ⟨hwf.1.1, hwf.1.2, k, rfl, hwf.2⟩

theorem kEndHeaderMarker_length : kEndHeaderMarker.length = 4 := rfl

/-- Parsing data that starts with a well-formed frame always succeeds and
delimits exactly that frame, no matter what follows it. -/
theorem parse_wf_frame (h b rest : List Char) (hwf : frameWFb (h, b) = true) :
    parseHeaderGetBodyOffset (h ++ b ++ rest) = .ok h.length (b.length : Int) := by
  obtain ⟨h4, hfind, k, hk, hatoi⟩ := frameWF_spec h b hwf
  have hfind' : findSubstr kEndHeaderMarker (h ++ (b ++ rest)) = some (h.length - 4) :=
    findSubstr_append _ _ _ _ hfind
  have hassoc : h ++ b ++ rest = h ++ (b ++ rest) := List.append_assoc h b rest
  unfold parseHeaderGetBodyOffset
  rw [hassoc, hfind']
  dsimp only
  have htake : (h ++ (b ++ rest)).take (h.length - 4) = h.take (h.length - 4) :=
    take_append_left _ _ (by omega)
  rw [htake, hk]
  dsimp only
  rw [hatoi]
  dsimp only
  have hoff : h.length - 4 + kEndHeaderMarker.length = h.length := by
    rw [kEndHeaderMarker_length]
    omega
  rw [hoff]

theorem frameBytes_length (h b : List Char) :
    (frameBytes (h, b)).length = h.length + b.length := by
  simp [frameBytes]

/-- A strict prefix of a well-formed frame parks in the buffer: processing
consumes nothing and succeeds (header incomplete, or body bytes missing). -/
theorem process_stops (h b : List Char) (tl : List Char)
    (hwf : frameWFb (h, b) = true)
    (hlt : tl.length < (frameBytes (h, b)).length)
    (w : List Char) (hw : tl ++ w = frameBytes (h, b)) :
    processContainedMessages tl = ([], tl, .ok) := by
  obtain ⟨h4, hfind, k, hk, hatoi⟩ := frameWF_spec h b hwf
  by_cases htl : tl = []
  · subst htl
    rw [processContainedMessages]
    simp
  · have hwb : tl ++ w = h ++ b := by
      rw [hw]; rfl
    rw [frameBytes_length] at hlt
    by_cases hcase : tl.length < h.length
    · -- header still incomplete
      have htl_take : tl = h.take tl.length := by
        have ht1 : tl = (tl ++ w).take tl.length := by simp
        rw [hwb, take_append_left h b (by omega)] at ht1
        exact ht1
      have hfull : tl ++ h.drop tl.length = h := by
        conv_rhs => rw [← List.take_append_drop tl.length h]
        rw [← htl_take]
      have hnone : findSubstr kEndHeaderMarker tl = none := by
        apply findSubstr_of_append_lt kEndHeaderMarker tl (h.drop tl.length) (h.length - 4)
        · rw [hfull]; exact hfind
        · rw [kEndHeaderMarker_length]; omega
      rw [processContainedMessages, dif_neg htl]
      unfold parseHeaderGetBodyOffset
      rw [hnone]
    · -- header complete, body not yet
      have hhle : h.length ≤ tl.length := by omega
      have htk : tl.take h.length = h := by
        have ht1 : (tl ++ w).take h.length = tl.take h.length :=
          take_append_left tl w hhle
        rw [hwb, List.take_left] at ht1
        exact ht1.symm
      have hsplit : tl = h ++ tl.drop h.length := by
        conv_lhs => rw [← List.take_append_drop h.length tl]
        rw [htk]
      have hfind' : findSubstr kEndHeaderMarker tl = some (h.length - 4) := by
        rw [hsplit]
        exact findSubstr_append _ _ _ _ hfind
      have htake : tl.take (h.length - 4) = h.take (h.length - 4) := by
        rw [hsplit, take_append_left h _ (by omega)]
      rw [processContainedMessages, dif_neg htl]
      have hparse : parseHeaderGetBodyOffset tl = .ok h.length (b.length : Int) := by
        unfold parseHeaderGetBodyOffset
        rw [hfind']
        dsimp only
        rw [htake, hk]
        dsimp only
        rw [hatoi]
        dsimp only
        rw [show h.length - 4 + kEndHeaderMarker.length = h.length by
          rw [kEndHeaderMarker_length]; omega]
      rw [hparse]
      dsimp only
      rw [if_pos (by push_cast; omega)]

/-- Processing a run of well-formed frames followed by a stalled tail emits
exactly those frames in order and retains the tail. -/
theorem process_frames (fs : List (List Char × List Char)) (tl : List Char)
    (hwf : ∀ f ∈ fs, frameWFb f = true)
    (hstall : processContainedMessages tl = ([], tl, .ok)) :
    processContainedMessages (concatFrames fs ++ tl) = (fs, tl, .ok) := by
  induction fs with
  | nil =>
    simpa [concatFrames] using hstall
  | cons f fs' ih =>
    obtain ⟨h, b⟩ := f
    have hwff : frameWFb (h, b) = true := hwf (h, b) (by simp)
    obtain ⟨h4, _, _, _, _⟩ := frameWF_spec h b hwff
    have hcc : concatFrames ((h, b) :: fs') ++ tl
        = h ++ b ++ (concatFrames fs' ++ tl) := by
      simp [concatFrames, frameBytes, List.append_assoc]
    rw [hcc]
    have hne : h ++ b ++ (concatFrames fs' ++ tl) ≠ [] := by
      simp only [ne_eq, List.append_assoc, List.append_eq_nil]
      rintro ⟨rfl, -⟩
      simp at h4
    rw [processContainedMessages, dif_neg hne]
    rw [parse_wf_frame h b _ hwff]
    dsimp only
    have hlen : (h ++ b ++ (concatFrames fs' ++ tl)).length
        = h.length + b.length + (concatFrames fs' ++ tl).length := by
      simp
      omega
    rw [if_neg (by rw [hlen]; push_cast; omega)]
    rw [dif_neg (by push_cast; omega)]
    have htoNat : ((h.length : Int) + (b.length : Int)).toNat = h.length + b.length := by
      omega
    have htake1 : (h ++ b ++ (concatFrames fs' ++ tl)).take h.length = h := by
      rw [List.append_assoc, take_append_left h _ (by omega)]
      simp
    have hdrop1 : (h ++ b ++ (concatFrames fs' ++ tl)).drop h.length
        = b ++ (concatFrames fs' ++ tl) := by
      rw [List.append_assoc, List.drop_left]
    have htake2 : ((h ++ b ++ (concatFrames fs' ++ tl)).drop h.length).take
        ((b.length : Int)).toNat = b := by
      rw [hdrop1]
      rw [show ((b.length : Int)).toNat = b.length by omega]
      rw [take_append_left b _ (by omega)]
      simp
    have hdrop2 : (h ++ b ++ (concatFrames fs' ++ tl)).drop
        (((h.length : Int) + (b.length : Int)).toNat) = concatFrames fs' ++ tl := by
      rw [htoNat, ← List.length_append h b, List.drop_left]
    rw [htake1, htake2, hdrop2]
    rw [ih (fun f hf => hwf f (by simp [hf]))]

/-- Any prefix of a frame-sequence byte stream splits into a run of whole
frames plus a strict prefix of the next frame (or nothing is left). -/
theorem decompose_frame_run (fs : List (List Char × List Char))
    (P w : List Char) (hPw : P ++ w = concatFrames fs) :
    ∃ k t, P = concatFrames (fs.take k) ++ t ∧
      ((fs.drop k = [] ∧ t = []) ∨
       (∃ g gs, fs.drop k = g :: gs ∧ t.length < (frameBytes g).length ∧
         ∃ w', t ++ w' = frameBytes g)) := by
  induction fs generalizing P w with
  | nil =>
    have hP : P = [] := by
      have := congrArg List.length hPw
      simp [concatFrames] at this
      exact this.1
    exact ⟨0, [], by simp [hP, concatFrames], Or.inl ⟨rfl, rfl⟩⟩
  | cons f fs' ih =>
    have hPw' : P ++ w = frameBytes f ++ concatFrames fs' := by
      rw [hPw]; simp [concatFrames]
    by_cases hlen : P.length < (frameBytes f).length
    · refine ⟨0, P, by simp [concatFrames], Or.inr ⟨f, fs', rfl, hlen, ?_⟩⟩
      have htk : P = (frameBytes f).take P.length := by
        have h1 : P = (P ++ w).take P.length := by simp
        rw [hPw', take_append_left _ _ (by omega)] at h1
        exact h1
      refine ⟨(frameBytes f).drop P.length, ?_⟩
      conv_rhs => rw [← List.take_append_drop P.length (frameBytes f)]
      rw [← htk]
    · have hfle : (frameBytes f).length ≤ P.length := by omega
      have htk : P.take (frameBytes f).length = frameBytes f := by
        have h1 : (P ++ w).take (frameBytes f).length
            = P.take (frameBytes f).length := take_append_left _ _ hfle
        rw [hPw', List.take_left] at h1
        exact h1.symm
      have hsplit : P = frameBytes f ++ P.drop (frameBytes f).length := by
        conv_lhs => rw [← List.take_append_drop (frameBytes f).length P]
        rw [htk]
      have hrest : P.drop (frameBytes f).length ++ w = concatFrames fs' := by
        apply @List.append_cancel_left Char (frameBytes f)
        rw [← List.append_assoc, ← hsplit, hPw']
      obtain ⟨k, t, hPt, hcase⟩ := ih _ _ hrest
      refine ⟨k + 1, t, ?_, hcase⟩
      rw [hsplit, hPt]
      simp [concatFrames, List.append_assoc]

/-- Core run lemma: pulls started from a leftover that is a strict prefix of
the remaining frame stream emit exactly the remaining frames. -/
theorem runChunks_wf (chunks : List (List Char)) (fs : List (List Char × List Char))
    (tl : List Char)
    (hwf : ∀ f ∈ fs, frameWFb f = true)
    (hdata : tl ++ chunks.flatten = concatFrames fs)
    (htl : tl = [] ∨ ∃ g gs, fs = g :: gs ∧ tl.length < (frameBytes g).length ∧
        ∃ w, tl ++ w = frameBytes g) :
    runChunks tl chunks = (fs, []) := by
  induction chunks generalizing fs tl with
  | nil =>
    simp only [List.flatten_nil, List.append_nil] at hdata
    rcases htl with rfl | ⟨g, gs, rfl, hlt, -⟩
    · have hfs : fs = [] := by
        cases fs with
        | nil => rfl
        | cons f fs' =>
          exfalso
          obtain ⟨h, b⟩ := f
          obtain ⟨h4, -⟩ := frameWF_spec h b (hwf (h, b) (by simp))
          have := congrArg List.length hdata
          simp [concatFrames, frameBytes] at this
          omega
      subst hfs
      simp [runChunks]
    · exfalso
      have := congrArg List.length hdata
      simp [concatFrames] at this
      omega
  | cons c cs ih =>
    have hdata2 : (tl ++ c) ++ cs.flatten = concatFrames fs := by
      simpa [List.append_assoc] using hdata
    obtain ⟨k, t, hPt, hcase⟩ := decompose_frame_run fs (tl ++ c) cs.flatten hdata2
    have hstall : processContainedMessages t = ([], t, .ok) := by
      rcases hcase with ⟨-, rfl⟩ | ⟨g, gs, hdk, hlt, w', hw'⟩
      · rw [processContainedMessages]
        simp
      · have hgmem : g ∈ fs := List.drop_subset k fs (hdk ▸ List.mem_cons_self g gs)
        obtain ⟨gh, gb⟩ := g
        exact process_stops gh gb t (hwf (gh, gb) hgmem) hlt w' hw'
    have hproc : processContainedMessages (tl ++ c) = (fs.take k, t, .ok) := by
      rw [hPt]
      exact process_frames (fs.take k) t
        (fun f hf => hwf f (List.take_subset k fs hf)) hstall
    have hih : runChunks t cs = (fs.drop k, []) := by
      apply ih
      · intro f hf
        exact hwf f (List.drop_subset k fs hf)
      · have hsplitfs : concatFrames fs
            = concatFrames (fs.take k) ++ concatFrames (fs.drop k) := by
          unfold concatFrames
          rw [← List.flatten_append, ← List.map_append, List.take_append_drop]
        apply @List.append_cancel_left Char (concatFrames (fs.take k))
        rw [← List.append_assoc, ← hPt, hdata2, hsplitfs]
      · rcases hcase with ⟨hdk, rfl⟩ | ⟨g, gs, hdk, hlt, hw⟩
        · exact Or.inl rfl
        · exact Or.inr ⟨g, gs, hdk, hlt, hw⟩
    show runChunks tl (c :: cs) = (fs, [])
    simp only [runChunks, hproc]
    rw [hih]
    simp

/-- C1 counterexample.  The claim's class of frames — any header terminated
by `\r\n\r\n` containing a Content-Length line whose value is the exact
body length — includes `("Content-Length: 3\r\nUser-Agent: x\r\n\r\n",
"foo")`, and the claim demands one processor invocation with body `foo`.
The splitter instead feeds `SimpleAtoi` everything after the key up to the
header end (`3\r\nUser-Agent: x`), fails the parse, and aborts the session
with invalid-argument: zero processor invocations, not the claimed one. -/
theorem c1_counterexample_trailing_header_frame :
    processContainedMessages "Content-Length: 3\r\nUser-Agent: x\r\n\r\nfoo".toList
      = ([], "Content-Length: 3\r\nUser-Agent: x\r\n\r\nfoo".toList,
          ProcStatus.invalidArgument) ∧
    runChunks [] ["Content-Length: 3\r\nUser-Agent: x\r\n\r\nfoo".toList] = ([], []) ∧
    ([] : List (List Char × List Char))
      ≠ [("Content-Length: 3\r\nUser-Agent: x\r\n\r\n".toList, "foo".toList)] := by
  have hparse : parseHeaderGetBodyOffset "Content-Length: 3\r\nUser-Agent: x\r\n\r\nfoo".toList
      = ParseResult.invalid := by decide
  have hproc : processContainedMessages "Content-Length: 3\r\nUser-Agent: x\r\n\r\nfoo".toList
      = ([], "Content-Length: 3\r\nUser-Agent: x\r\n\r\nfoo".toList,
          ProcStatus.invalidArgument) := by
    rw [processContainedMessages, dif_neg (by decide), hparse]
  refine ⟨hproc, ?_, by decide⟩
  simp only [runChunks, List.nil_append, hproc]

/-- C1 (amended).  For every finite sequence of frames the splitter
*accepts* — header terminated by `\r\n\r\n`, whose first Content-Length
key is followed, up to the header terminator, by digits whose value is the
exact body length (so the Content-Length line is effectively the last
header line; each whole frame smaller than the buffer capacity) — and
every partition of the concatenated bytes into nonempty chunks handed back
one per read call, repeatedly pulling invokes the message processor exactly
once per frame, in order, with exactly that frame's header and body bytes —
and nothing is left pending at the end.  (Each frame fitting the read
buffer is what makes the C++ buffer arithmetic coincide with plain
concatenation of pending and read bytes, which is how `runChunks` models
it.) -/
theorem c1_splitter_emits_frames (fs : List (List Char × List Char))
    (chunks : List (List Char))
    (hwf : ∀ f ∈ fs, frameWFb f = true)
    (hne : ∀ c ∈ chunks, c ≠ [])
    (hpart : chunks.flatten = concatFrames fs) :
    runChunks [] chunks = (fs, []) :=
  runChunks_wf chunks fs [] hwf (by simpa using hpart) (Or.inl rfl)

/-- C1 witness: two 24-byte frames with bodies `foo` and `bar`, delivered
in two chunks that split in the middle of the second frame's header. -/
theorem c1_witness :
    runChunks []
      ["Content-Length: 3\r\n\r\nfooContent-".toList,
       "Length: 3\r\n\r\nbar".toList]
      = ([("Content-Length: 3\r\n\r\n".toList, "foo".toList),
          ("Content-Length: 3\r\n\r\n".toList, "bar".toList)], []) :=
  c1_splitter_emits_frames
    [("Content-Length: 3\r\n\r\n".toList, "foo".toList),
     ("Content-Length: 3\r\n\r\n".toList, "bar".toList)]
    ["Content-Length: 3\r\n\r\nfooContent-".toList,
     "Length: 3\r\n\r\nbar".toList]
    (by decide) (by decide) (by decide)

/-- C5 counterexample.  A header whose `Content-Length` line is followed by
another header line before the `\r\n\r\n` terminator is rejected: the value
view runs from after `Content-Length: ` to the end of the whole header, so
`SimpleAtoi` sees `3\r\nUser-Agent: x` and fails, and the parse reports the
fatal invalid (-2) outcome instead of accepting a 3-byte body at offset
36 as the claim asserts. -/
theorem c5_counterexample_trailing_header :
    parseHeaderGetBodyOffset "Content-Length: 3\r\nUser-Agent: x\r\n\r\nfoo".toList
      = ParseResult.invalid ∧
    ParseResult.invalid ≠ ParseResult.ok 36 3 := by
  exact ⟨by decide, by decide⟩

theorem marker_char_cases (m : Nat) (hm : m < 4) :
    kEndHeaderMarker[m]? = some '\r' ∨ kEndHeaderMarker[m]? = some '\n' := by
  interval_cases m <;> simp [kEndHeaderMarker]

/-- C5 (amended).  A buffered frame is accepted, with the digits as exact
body length, when the `Content-Length: ` line is the *last* line of the
header: header lines preceding it are ignored (they may say anything that
does not contain the terminator or the key itself), but the bytes between
the digits and the terminating `\r\n\r\n` must parse as the number alone, so
further header lines after the Content-Length line make the frame fail
instead. -/
theorem c5_amended_content_length_last (pre val body rest : List Char)
    (hnm : findSubstr kEndHeaderMarker (pre ++ kContentLengthHeader ++ val) = none)
    (hkey : findSubstr kContentLengthHeader (pre ++ kContentLengthHeader ++ val)
        = some pre.length)
    (hvne : val ≠ [])
    (hdig : val.all Char.isDigit = true)
    (hval : simpleAtoi val = some (body.length : Int)) :
    parseHeaderGetBodyOffset
        (pre ++ kContentLengthHeader ++ val ++ kEndHeaderMarker ++ body ++ rest)
      = .ok (pre.length + kContentLengthHeader.length + val.length + 4) body.length := by
  set x := pre ++ kContentLengthHeader ++ val with hx
  have hdata : pre ++ kContentLengthHeader ++ val ++ kEndHeaderMarker ++ body ++ rest
      = x ++ (kEndHeaderMarker ++ (body ++ rest)) := by
    simp [hx, List.append_assoc]
  have hfind : findSubstr kEndHeaderMarker (x ++ (kEndHeaderMarker ++ (body ++ rest)))
      = some x.length := by
    apply findSubstr_eq_some_of
    · rw [List.drop_left, take_append_left _ _ (by rw [kEndHeaderMarker_length])]
      simp
    · intro j hj heq
      by_cases hcase : j + 4 ≤ x.length
      · apply findSubstr_none_no_match kEndHeaderMarker x hnm j
        rw [drop_append_left x _ (by omega),
          take_append_left _ _ (by simp [kEndHeaderMarker_length]; omega)] at heq
        exact heq
      · -- the marker window would overlap the digits: impossible
        obtain ⟨d, hd⟩ : ∃ d, val.getLast? = some d := by
          cases hv : val.getLast? with
          | none => exact absurd (List.getLast?_eq_none_iff.mp hv) hvne
          | some d => exact ⟨d, rfl⟩
        have hdd : d.isDigit = true := by
          have hmem := List.mem_of_getLast?_eq_some hd
          exact List.all_eq_true.mp hdig d hmem
        have hxlast : x.getLast? = some d := by
          rw [hx, List.append_assoc, List.getLast?_append]
          rw [List.getLast?_append]
          rw [hd]
          rfl
        have hxpos : 0 < x.length := by
          cases hxn : x with
          | nil =>
            rw [hxn] at hxlast
            cases hxlast
          | cons a l => simp [hxn]
        set m := x.length - 1 - j with hm
        have hm4 : m < 4 := by omega
        have hgm : kEndHeaderMarker[m]?
            = ((x ++ (kEndHeaderMarker ++ (body ++ rest))).drop j)[m]? := by
          conv_lhs => rw [← heq]
          rw [List.getElem?_take_of_lt (by rw [kEndHeaderMarker_length]; exact hm4)]
        rw [List.getElem?_drop] at hgm
        have hjm : j + m = x.length - 1 := by omega
        rw [hjm, List.getElem?_append_left (by omega)] at hgm
        have hxl : x[x.length - 1]? = some d := by
          rw [← List.getLast?_eq_getElem?]
          exact hxlast
        rw [hxl] at hgm
        rcases marker_char_cases m hm4 with hcr | hlf
        · rw [hcr] at hgm
          cases hgm
          simp at hdd
        · rw [hlf] at hgm
          cases hgm
          simp at hdd
  rw [hdata]
  unfold parseHeaderGetBodyOffset
  rw [hfind]
  dsimp only
  have htake : (x ++ (kEndHeaderMarker ++ (body ++ rest))).take x.length = x :=
    List.take_left x _
  rw [htake, hkey]
  dsimp only
  have hdropval : x.drop (pre.length + kContentLengthHeader.length) = val := by
    rw [hx,
      show pre.length + kContentLengthHeader.length
        = (pre ++ kContentLengthHeader).length by simp,
      List.drop_left]
  rw [hdropval, hval]
  dsimp only
  have : x.length + kEndHeaderMarker.length
      = pre.length + kContentLengthHeader.length + val.length + 4 := by
    rw [kEndHeaderMarker_length, hx]
    simp
    omega
  rw [this]

/-- C5 amended witness: one ignored header line before a final
`Content-Length: 3` line, body `abc`. -/
theorem c5_witness :
    parseHeaderGetBodyOffset
        ("Host: x\r\n".toList ++ kContentLengthHeader ++ "3".toList ++ kEndHeaderMarker
          ++ "abc".toList ++ [])
      = .ok ("Host: x\r\n".toList.length + kContentLengthHeader.length
          + "3".toList.length + 4) ("abc".toList.length) :=
  c5_amended_content_length_last "Host: x\r\n".toList "3".toList "abc".toList []
    (by decide) (by decide) (by decide) (by decide) (by decide)

/-- C6 (code bug).  The spec, the claim and the splitter's own test
(`StreamDoesNotContainCompleteData`) call for a data-loss status when the
read function reports EOF while unconsumed partial-frame bytes are pending;
`ReadInput` instead returns `absl::UnavailableError` for every
`bytes_read <= 0`, pending or not.  Evaluated at the failing input — a
pending truncated frame and a clean EOF — the code yields `unavailable 0`,
not the claimed `dataLoss`. -/
theorem c6_eof_pending_unavailable :
    readInput "Content-Length: 3\r\n\r\nfo".toList ReadOutcome.eof
      = (SplitStatus.unavailable 0, [], "Content-Length: 3\r\n\r\nfo".toList) ∧
    SplitStatus.unavailable 0 ≠ SplitStatus.dataLoss := by
  exact ⟨rfl, by decide⟩
